import Mathlib

/-
Verification of the element-model layer of Silex (src/js/model/element.js)
against its natural-language specification.

Strings are embedded as `List Char`. JavaScript regular-expression
replacement (`String.replace` with a global regex) is embedded by a small
backtracking matcher specialised to the concrete token shapes occurring in
the source: literal runs, `.` (any char except a line terminator), greedy
`.*`, lazy `.*?`, and greedy character-class stars `[..]*`.  The `i` flag is
modelled by ASCII case folding (all literals in the source are ASCII).
-/

namespace Silex

/-- Lowercase an ASCII letter; other characters are unchanged (ASCII model of
JavaScript case-insensitive matching; all pattern literals in the source are
ASCII). -/
def lowerA (c : Char) : Char :=
  if 'A' ≤ c ∧ c ≤ 'Z' then Char.ofNat (c.toNat + 32) else c

/-- Character comparison, case-insensitively when `ci` is true. -/
def charEq (ci : Bool) (c d : Char) : Bool :=
  if ci then lowerA c = lowerA d else c = d

/-- Strip `pat` from the front of `s` (char-by-char, case folding per `ci`),
returning the remainder on success. -/
def stripPrefixP (ci : Bool) : List Char → List Char → Option (List Char)
  | [], s => some s
  | _ :: _, [] => none
  | c :: cs, d :: ds => if charEq ci c d then stripPrefixP ci cs ds else none

/-- Does `s` start with `pat` (modulo case folding per `ci`)? -/
def startsWithP (ci : Bool) (pat s : List Char) : Bool :=
  (stripPrefixP ci pat s).isSome

/-- Does `pat` occur anywhere in `s` (modulo case folding per `ci`)? -/
def occursP (ci : Bool) (pat : List Char) : List Char → Bool
  | [] => startsWithP ci pat []
  | c :: cs => startsWithP ci pat (c :: cs) || occursP ci pat cs

/-- Line terminators, which `.` in a JavaScript regex does not match. -/
def isLineTerm (c : Char) : Bool :=
  c = '\n' || c = '\r' || c = '\u2028' || c = '\u2029'

/-- Number of leading characters of `s` before the first line terminator:
the maximum run `.*` can consume. -/
def countNonTerm (s : List Char) : Nat :=
  (s.takeWhile (fun c => !isLineTerm c)).length

/-- Regex tokens for the concrete patterns appearing in the source. -/
inductive RTok where
  | lit (l : List Char)
  | anyc
  | star
  | lazyStar
  | cstar (cs : List Char)

/-- Return the first `some` produced by `f` along a list of candidates. -/
def firstSome {α β : Type} (f : α → Option β) : List α → Option β
  | [] => none
  | a :: as =>
    match f a with
    | some b => some b
    | none => firstSome f as

/-- Match a token sequence at the start of `s`, returning the number of
characters consumed.  Greedy stars try the longest repetition first (JS
backtracking), lazy stars the shortest. -/
def matchToks (ci : Bool) : List RTok → List Char → Option Nat
  | [], _ => some 0
  | .lit l :: rest, s =>
    (stripPrefixP ci l s).bind (fun r => (matchToks ci rest r).map (· + l.length))
  | .anyc :: rest, s =>
    match s with
    | [] => none
    | c :: cs => if isLineTerm c then none else (matchToks ci rest cs).map (· + 1)
  | .star :: rest, s =>
    firstSome (fun i => (matchToks ci rest (s.drop i)).map (· + i))
      ((List.range (countNonTerm s + 1)).reverse)
  | .lazyStar :: rest, s =>
    firstSome (fun i => (matchToks ci rest (s.drop i)).map (· + i))
      (List.range (countNonTerm s + 1))
  | .cstar cset :: rest, s =>
    firstSome (fun i => (matchToks ci rest (s.drop i)).map (· + i))
      ((List.range ((s.takeWhile (fun c => cset.contains c)).length + 1)).reverse)

/-- Fuel-indexed worker for global regex replacement: scan left to right,
replacing each leftmost match and continuing after it (JS
`String.replace` with the `g` flag; a zero-width match advances one
character, as JS does).  With `fuel ≥ s.length` the fuel never runs out. -/
def replaceAllAux (ci : Bool) (toks : List RTok) (repl : List Char) :
    Nat → List Char → List Char
  | _, [] => []
  | 0, s => s
  | fuel + 1, c :: cs =>
    match matchToks ci toks (c :: cs) with
    | some (m + 1) => repl ++ replaceAllAux ci toks repl fuel (cs.drop m)
    | some 0 => repl ++ c :: replaceAllAux ci toks repl fuel cs
    | none => c :: replaceAllAux ci toks repl fuel cs

/-- Global regex replacement over a string. -/
def replaceAllRegex (ci : Bool) (toks : List RTok) (repl : List Char)
    (s : List Char) : List Char :=
  replaceAllAux ci toks repl s.length s

/-- Pattern of the authoring transform in `prepareHtmlForEdit`:
the regex `<script.*class="silex-script".*?>` with flags `gi`. -/
def scriptToks : List RTok :=
  [.lit ("<script".toList), .star, .lit ("class=\"silex-script\"".toList),
   .lazyStar, .lit (">".toList)]

/-- Replacement text used by `prepareHtmlForEdit` for each matched script tag. -/
def scriptRepl : List Char :=
  "<script type=\"text/notjavascript\" class=\"silex-script\">".toList

/-- Pattern of the publishing transform in `unprepareHtmlForEdit`:
the regex `type="text\/notjavascript"` with flags `gi`. -/
def notJsTok : List Char := "type=\"text/notjavascript\"".toList

/-- Replacement text restoring the executable script type. -/
def jsRepl : List Char := "type=\"text/javascript\"".toList

/-- Modelled from the spec: the cache-busting query marker.  The function
`silex.utils.Url.addUrlKeyword` and the marker literal live outside src/;
per the spec (section 4.1 and 4.4) a cache-busting query parameter pattern
is appended to URLs and stripped again on publish.  We fix one concrete
marker string for it. -/
def cacheMarker : List Char := "?silex-cache-control=true".toList

/-- Modelled from the spec: `silex.utils.Dom.removeCacheControl` is not under
src/; per the spec (section 4.1) it strips the injected cache-busting query
parameter pattern from URLs.  We model it as deletion of every occurrence of
the marker. -/
def removeCacheControl (s : List Char) : List Char :=
  replaceAllRegex false [.lit cacheMarker] [] s

/-- Modelled from the spec: the file/location collaborator (section 6) and the
URL-rewriting helpers `silex.utils.Url.relative2Absolute` /
`absolute2Relative` / `getBaseUrl`, which are not under src/.  They are
carried as explicit parameters of the codec. -/
structure UrlUtils where
  relative2Absolute : List Char → List Char → List Char
  absolute2Relative : List Char → List Char → List Char
  getBaseUrl : List Char

/-- JavaScript string truthiness for an optional string: `null`/`undefined`
and the empty string are falsy. -/
def strTruthy : Option (List Char) → Bool
  | none => false
  | some l => !l.isEmpty

/-- Index of the first occurrence of `//` in `s`, if any. -/
def idxOfDslash : List Char → Option Nat
  | [] => none
  | c :: cs =>
    if startsWithP false ("//".toList) (c :: cs) then some 0
    else (idxOfDslash cs).map (· + 1)

/-- JavaScript `s.substr(s.indexOf("//"))`: the suffix from the first `//`;
when absent, `indexOf` is -1 and `substr(-1)` yields the last character. -/
def fromDslash (s : List Char) : List Char :=
  match idxOfDslash s with
  | some i => s.drop i
  | none => s.drop (s.length - 1)

/-- Pattern of the static-assets normalisation in `unprepareHtmlForEdit`: the
regex built from the string `'\.\./\.\./\.\./\.\./\.\./[\.\./]*static/'`
(flag `g`).  The backslashes are consumed by the JavaScript string literal,
so the actual pattern is `../../../../../[../]*static/`, in which each `.`
is the any-character metacharacter and `[../]` is the class of `.` and `/`. -/
def staticToks : List RTok :=
  [.anyc, .anyc, .lit ("/".toList), .anyc, .anyc, .lit ("/".toList),
   .anyc, .anyc, .lit ("/".toList), .anyc, .anyc, .lit ("/".toList),
   .anyc, .anyc, .lit ("/".toList), .cstar ['.', '/'], .lit ("static/".toList)]

/-- Embedding of `silex.model.Element.prototype.prepareHtmlForEdit`: neutralise
author scripts, then (when the file URL is known) make URLs absolute. -/
def prepareHtmlForEdit (U : UrlUtils) (fileUrl : Option (List Char))
    (rawHtml : List Char) : List Char :=
  let r := replaceAllRegex true scriptToks scriptRepl rawHtml
  if strTruthy fileUrl then U.relative2Absolute r (U.getBaseUrl ++ fileUrl.getD [])
  else r

/-- Embedding of `silex.model.Element.prototype.unprepareHtmlForEdit`: restore
the executable script type, strip the cache-control marker, then (when the
file URL is known) make URLs relative and normalise over-long ascents to the
shared static path. -/
def unprepareHtmlForEdit (U : UrlUtils) (fileUrl : Option (List Char))
    (rawHtml : List Char) : List Char :=
  let r1 := replaceAllRegex true [.lit notJsTok] jsRepl rawHtml
  let r2 := removeCacheControl r1
  if strTruthy fileUrl then
    let baseUrl := U.getBaseUrl
    let r3 := U.absolute2Relative r2 (baseUrl ++ fileUrl.getD [])
    let staticUrl := fromDslash baseUrl ++ "static/".toList
    replaceAllRegex false staticToks staticUrl r3
  else r2

/-- A `UrlUtils` instance whose rewriters are the identity; used to
instantiate states in which the URL machinery is irrelevant. -/
def trivialUrlUtils : UrlUtils :=
  { relative2Absolute := fun s _ => s
    absolute2Relative := fun s _ => s
    getBaseUrl := [] }

theorem matchToks_lit_none (ci : Bool) (l : List Char) (rest : List RTok)
    (t : List Char) (h : startsWithP ci l t = false) :
    matchToks ci (.lit l :: rest) t = none := by
  have h2 : stripPrefixP ci l t = none := by
    cases hs : stripPrefixP ci l t with
    | none => rfl
    | some r => rw [startsWithP, hs] at h; simp at h
  simp [matchToks, h2]

theorem replaceAllAux_id (ci : Bool) (toks : List RTok) (repl : List Char) :
    ∀ (fuel : Nat) (s : List Char),
      (∀ t, t <:+ s → matchToks ci toks t = none) →
      replaceAllAux ci toks repl fuel s = s := by
  intro fuel
  induction fuel with
  | zero => intro s _; cases s <;> rfl
  | succ n ih =>
    intro s h
    cases s with
    | nil => rfl
    | cons c cs =>
      have hm : matchToks ci toks (c :: cs) = none := h _ (List.suffix_refl _)
      simp only [replaceAllAux, hm]
      exact congrArg (c :: ·) (ih cs (fun t ht => h t (ht.trans (List.suffix_cons c cs))))

theorem replaceAllRegex_id (ci : Bool) (toks : List RTok) (repl : List Char)
    (s : List Char) (h : ∀ t, t <:+ s → matchToks ci toks t = none) :
    replaceAllRegex ci toks repl s = s :=
  replaceAllAux_id ci toks repl s.length s h

theorem not_starts_of_not_occurs (ci : Bool) (pat : List Char) :
    ∀ (s t : List Char), occursP ci pat s = false → t <:+ s →
      startsWithP ci pat t = false := by
  intro s
  induction s with
  | nil =>
    intro t h ht
    rw [List.suffix_nil] at ht
    subst ht
    simpa [occursP] using h
  | cons c cs ih =>
    intro t h ht
    rw [occursP, Bool.or_eq_false_iff] at h
    rcases List.suffix_cons_iff.mp ht with rfl | h2
    · exact h.1
    · exact ih t h.2 h2

theorem stripPrefixP_append (ci : Bool) :
    ∀ (a b s : List Char),
      stripPrefixP ci (a ++ b) s = (stripPrefixP ci a s).bind (stripPrefixP ci b) := by
  intro a
  induction a with
  | nil => intro b s; simp [stripPrefixP]
  | cons c cs ih =>
    intro b s
    cases s with
    | nil => simp [stripPrefixP]
    | cons d ds =>
      simp only [List.cons_append, stripPrefixP]
      by_cases h : charEq ci c d
      · simp [h, ih]
      · simp [h]

theorem stripPrefixP_suffix (ci : Bool) :
    ∀ (a s r : List Char), stripPrefixP ci a s = some r → r <:+ s := by
  intro a
  induction a with
  | nil =>
    intro s r h
    simp only [stripPrefixP, Option.some.injEq] at h
    subst h
    exact List.suffix_refl _
  | cons c cs ih =>
    intro s r h
    cases s with
    | nil => simp [stripPrefixP] at h
    | cons d ds =>
      simp only [stripPrefixP] at h
      by_cases hc : charEq ci c d
      · rw [if_pos hc] at h
        exact (ih ds r h).trans (List.suffix_cons d ds)
      · rw [if_neg hc] at h
        exact absurd h (by simp)

theorem not_starts_decomp (ci : Bool) (pre mid post s : List Char)
    (h : occursP ci mid s = false) :
    ∀ t, t <:+ s → startsWithP ci (pre ++ (mid ++ post)) t = false := by
  intro t ht
  cases hs : startsWithP ci (pre ++ (mid ++ post)) t with
  | false => rfl
  | true =>
    exfalso
    rw [startsWithP] at hs
    cases hu : stripPrefixP ci (pre ++ (mid ++ post)) t with
    | none => rw [hu] at hs; simp at hs
    | some r =>
      rw [stripPrefixP_append] at hu
      cases hpre : stripPrefixP ci pre t with
      | none => rw [hpre] at hu; simp at hu
      | some u =>
        rw [hpre, Option.some_bind] at hu
        rw [stripPrefixP_append] at hu
        cases hmid : stripPrefixP ci mid u with
        | none => rw [hmid] at hu; simp at hu
        | some w =>
          have hsw : startsWithP ci mid u = true := by
            rw [startsWithP, hmid]; rfl
          have husuf : u <:+ s := (stripPrefixP_suffix ci pre t u hpre).trans ht
          have hfalse := not_starts_of_not_occurs ci mid s u h husuf
          rw [hfalse] at hsw
          exact Bool.false_ne_true hsw

theorem matchToks_litHead_none (ci : Bool) (l : List Char) (rest : List RTok)
    (s : List Char) (h : occursP ci l s = false) :
    ∀ t, t <:+ s → matchToks ci (.lit l :: rest) t = none := fun t ht =>
  matchToks_lit_none ci l rest t (not_starts_of_not_occurs ci l s t h ht)

/-- C1 (counterexample): the HTML fragment consisting of a single script tag
carrying the silex-script class but written differently from the canonical
replacement form contains neither the notjavascript MIME token nor the
cache-busting query marker, yet does not round-trip: the authoring transform
rewrites the tag to a fixed canonical form, discarding its original
attribute text, and the publish transform restores `type="text/javascript"`,
producing a different string. -/
theorem C1_counterexample :
    occursP true ("notjavascript".toList) ("<script class=\"silex-script\">".toList) = false ∧
    occursP false cacheMarker ("<script class=\"silex-script\">".toList) = false ∧
    unprepareHtmlForEdit trivialUrlUtils none
        (prepareHtmlForEdit trivialUrlUtils none ("<script class=\"silex-script\">".toList)) ≠
      ("<script class=\"silex-script\">".toList) :=
  ⟨by decide, by decide, by decide⟩

/-- C1 (amended): for every HTML string that contains no occurrence of
`<script` (case-insensitive), no `notjavascript` token and no cache-busting
query marker, and when no base location is known (so no URL rewriting
applies), the publish transform inverts the authoring transform:
`unprepareHtmlForEdit (prepareHtmlForEdit h) = h`. -/
theorem C1_roundtrip (U : UrlUtils) (h : List Char)
    (h1 : occursP true ("<script".toList) h = false)
    (h2 : occursP true ("notjavascript".toList) h = false)
    (h3 : occursP false cacheMarker h = false) :
    unprepareHtmlForEdit U none (prepareHtmlForEdit U none h) = h := by
  have hp : prepareHtmlForEdit U none h = h := by
    have hrep : replaceAllRegex true scriptToks scriptRepl h = h := by
      refine replaceAllRegex_id true scriptToks scriptRepl h ?_
      intro t ht
      show matchToks true (.lit ("<script".toList) ::
        [RTok.star, .lit ("class=\"silex-script\"".toList), .lazyStar,
         .lit (">".toList)]) t = none
      exact matchToks_litHead_none true ("<script".toList) _ h h1 t ht
    simpa [prepareHtmlForEdit, strTruthy] using hrep
  rw [hp]
  have hr1 : replaceAllRegex true [.lit notJsTok] jsRepl h = h := by
    refine replaceAllRegex_id true [.lit notJsTok] jsRepl h ?_
    have hdec : notJsTok =
        ("type=\"text/".toList ++ ("notjavascript".toList ++ ("\"".toList))) := by decide
    intro t ht
    refine matchToks_lit_none true notJsTok [] t ?_
    rw [hdec]
    exact not_starts_decomp true ("type=\"text/".toList) ("notjavascript".toList)
      ("\"".toList) h h2 t ht
  have hr2 : removeCacheControl h = h := by
    rw [removeCacheControl]
    refine replaceAllRegex_id false [.lit cacheMarker] [] h ?_
    intro t ht
    exact matchToks_lit_none false cacheMarker [] t
      (not_starts_of_not_occurs false cacheMarker h t h3 ht)
  simp [unprepareHtmlForEdit, strTruthy, hr1, hr2]

/-- Data carried by a DOM node: the identity used for JavaScript reference
comparison (`nid`), the DOM nodeType (1 = element, 3 = text), the lowercase
tag name, the attribute association list, the class-token list (the
className attribute is their single-space join), the silex id held for the
node by the property-store collaborator, and an uninterpreted text payload standing
for innerHTML content whose internal structure the element model never
inspects. -/
structure NodeData where
  nid : Nat
  nodeType : Nat
  tag : List Char
  attrs : List (List Char × List Char)
  classes : List (List Char)
  silexId : Option (List Char) := none
  text : List Char := []

/-- A DOM subtree: node data plus the ordered child list. -/
inductive DomTree where
  | node (data : NodeData) (children : List DomTree)

def DomTree.data : DomTree → NodeData
  | .node d _ => d

def DomTree.children : DomTree → List DomTree
  | .node _ ch => ch

/-- Association-list lookup for attributes / JS object properties
(getAttribute returns null for an absent attribute). -/
def getAttributeL (attrs : List (List Char × List Char)) (k : List Char) :
    Option (List Char) :=
  (attrs.find? (fun p => p.1 = k)).map (fun p => p.2)

/-- Association-list update: replace the value under `k`, or append. -/
def setAttributeL (k v : List Char) :
    List (List Char × List Char) → List (List Char × List Char)
  | [] => [(k, v)]
  | p :: rest => if p.1 = k then (k, v) :: rest else p :: setAttributeL k v rest

/-- Association-list removal of every binding of `k` (removeAttribute). -/
def removeAttributeL (k : List Char) (attrs : List (List Char × List Char)) :
    List (List Char × List Char) :=
  attrs.filter (fun p => p.1 ≠ k)

def DomTree.getAttribute (t : DomTree) (k : List Char) : Option (List Char) :=
  getAttributeL t.data.attrs k

def DomTree.setAttribute (t : DomTree) (k v : List Char) : DomTree :=
  match t with
  | .node d ch => .node { d with attrs := setAttributeL k v d.attrs } ch

def DomTree.removeAttribute (t : DomTree) (k : List Char) : DomTree :=
  match t with
  | .node d ch => .node { d with attrs := removeAttributeL k d.attrs } ch

/-- classList.add: append the token unless already present. -/
def DomTree.addClass (t : DomTree) (c : List Char) : DomTree :=
  match t with
  | .node d ch =>
    if c ∈ d.classes then .node d ch
    else .node { d with classes := d.classes ++ [c] } ch

/-- classList.remove: drop every occurrence of the token. -/
def DomTree.removeClass (t : DomTree) (c : List Char) : DomTree :=
  match t with
  | .node d ch => .node { d with classes := d.classes.filter (fun x => x ≠ c) } ch

def DomTree.setSilexId (t : DomTree) (gid : List Char) : DomTree :=
  match t with
  | .node d ch => .node { d with silexId := some gid } ch

/-- Reserved attribute and class literals of silex.model.Element. -/
def typeAttr : List Char := "data-silex-type".toList

def linkAttr : List Char := "data-silex-href".toList

def elementContentClassName : List Char := "silex-element-content".toList

def loadingElementCssClass : List Char := "loading-image".toList

def selectedClassName : List Char := "silex-selected".toList

def justAddedClassName : List Char := "silex-just-added".toList

def typeContainer : List Char := "container".toList

def typeImage : List Char := "image".toList

def typeText : List Char := "text".toList

def typeHtml : List Char := "html".toList

/-- Embedding of getType: read the reserved type attribute; null signals
"not a model node". -/
def getType (el : DomTree) : Option (List Char) :=
  el.getAttribute typeAttr

/-- Embedding of setLink: a truthy link is stored in the reserved link
attribute; a falsy one (null, undefined or the empty string) removes the
attribute entirely. -/
def setLink (el : DomTree) (optLink : Option (List Char)) : DomTree :=
  if strTruthy optLink then el.setAttribute linkAttr (optLink.getD [])
  else el.removeAttribute linkAttr

/-- Embedding of getLink: read the reserved link attribute. -/
def getLink (el : DomTree) : Option (List Char) :=
  el.getAttribute linkAttr

mutual
/-- Descendants of a node in document order (the node itself excluded), as
searched by goog.dom.getElementsByClass / getElementsByTagNameAndClass. -/
def DomTree.descendants : DomTree → List DomTree
  | .node _ ch => descendantsL ch
def descendantsL : List DomTree → List DomTree
  | [] => []
  | c :: cs => c :: (c.descendants ++ descendantsL cs)
end

/-- Embedding of getContentNode: the unique descendant carrying the reserved
content-marker class when exactly one exists, else the element itself. -/
def getContentNode (el : DomTree) : DomTree :=
  let contentElements :=
    el.descendants.filter (fun c => elementContentClassName ∈ c.data.classes)
  match contentElements with
  | [c] => c
  | _ => el

mutual
/-- goog.dom.contains: is the node with this identity the root itself or a
node of its subtree? -/
def containsNode (target : Nat) : DomTree → Bool
  | .node d ch => d.nid = target || containsNodeL target ch
def containsNodeL (target : Nat) : List DomTree → Bool
  | [] => false
  | c :: cs => containsNode target c || containsNodeL target cs
end

mutual
/-- goog.dom.removeNode at the subtree level: detach every node with the
given identity from its parent. -/
def removeNid (target : Nat) : DomTree → DomTree
  | .node d ch => .node d (removeNidL target ch)
def removeNidL (target : Nat) : List DomTree → List DomTree
  | [] => []
  | c :: cs =>
    if c.data.nid = target then removeNidL target cs
    else removeNid target c :: removeNidL target cs
end

/-- Modelled from the spec: the page-registry collaborator (section 6) lives
outside src/.  It knows the registered page names and the active page. -/
structure PageCtx where
  pages : List (List Char)
  activePage : List Char

/-- Modelled from the spec: pagesOf(node) of the page-registry collaborator
(section 6); a node's pages are the registered page names it carries. -/
def getPagesForElement (ctx : PageCtx) (el : DomTree) : List (List Char) :=
  el.data.classes.filter (fun c => c ∈ ctx.pages)

/-- Modelled from the spec: isVisibleOnActivePage(node) of the page-registry
collaborator (section 6). -/
def isInPage (ctx : PageCtx) (el : DomTree) : Bool :=
  ctx.activePage ∈ getPagesForElement ctx el

/-- Scan loop shared by getPreviousElement and getNextElement: walk the
sibling list, remembering the last model node that is visible on the active
page or on no page at all; on reaching the target, return the memory. -/
def prevScan (ctx : PageCtx) (target : Nat) :
    List DomTree → Option DomTree → Option DomTree
  | [], _ => none
  | el :: rest, res =>
    if el.data.nodeType = 1 ∧ getType el ≠ none then
      if el.data.nid = target then res
      else if isInPage ctx el ∨ (getPagesForElement ctx el).length = 0 then
        prevScan ctx target rest (some el)
      else prevScan ctx target rest res
    else prevScan ctx target rest res

/-- Embedding of getPreviousElement: forward scan of the parent's children. -/
def getPreviousElement (ctx : PageCtx) (children : List DomTree) (target : Nat) :
    Option DomTree :=
  prevScan ctx target children none

/-- Embedding of getNextElement: the same scan run from the end of the
child list towards the front. -/
def getNextElement (ctx : PageCtx) (children : List DomTree) (target : Nat) :
    Option DomTree :=
  prevScan ctx target children.reverse none

/-- Directions of silex.model.DomDirection. -/
inductive DomDirection where
  | UP
  | DOWN
  | TOP
  | BOTTOM

def findNode (l : List DomTree) (target : Nat) : Option DomTree :=
  l.find? (fun d => d.data.nid = target)

/-- Identity of the next sibling of the node with identity `target`. -/
def nextSiblingNid : List DomTree → Nat → Option Nat
  | [], _ => none
  | c :: cs, target =>
    if c.data.nid = target then cs.head?.map (fun d => d.data.nid)
    else nextSiblingNid cs target

def insertBeforeNid (x : DomTree) (r : Nat) : List DomTree → List DomTree
  | [] => [x]
  | c :: cs => if c.data.nid = r then x :: c :: cs else c :: insertBeforeNid x r cs

/-- DOM insertBefore / appendChild at the sibling-list level: detach the
moved node, then insert it before the reference node (before its old next
sibling when the reference is the node itself, at the end when the
reference is null). -/
def insertBeforeRef (l : List DomTree) (mv : Nat) (ref : Option Nat) :
    List DomTree :=
  match findNode l mv with
  | none => l
  | some mvNode =>
    let ref2 :=
      match ref with
      | some r => if r = mv then nextSiblingNid l mv else some r
      | none => none
    let l2 := l.filter (fun d => d.data.nid ≠ mv)
    match ref2 with
    | none => l2 ++ [mvNode]
    | some r => insertBeforeNid mvNode r l2

/-- Removal of the just-added transient class from the target node, applied by
move to the element it was called on. -/
def clearJustAdded (target : Nat) (d : DomTree) : DomTree :=
  if d.data.nid = target then d.removeClass justAddedClassName else d

/-- Embedding of move: UP splices the next visible element immediately before
the target, DOWN splices the previous visible element immediately after it,
TOP appends the target to its parent (topmost paint order), BOTTOM inserts
it before the first raw child; in every case the just-added transient class
is removed from the target. -/
def move (ctx : PageCtx) (children : List DomTree) (target : Nat)
    (direction : DomDirection) : List DomTree :=
  let moved : List DomTree :=
    match direction with
    | .UP =>
      match getNextElement ctx children target with
      | some sibling => insertBeforeRef children sibling.data.nid (some target)
      | none => children
    | .DOWN =>
      match getPreviousElement ctx children target with
      | some sibling =>
        insertBeforeRef children sibling.data.nid (nextSiblingNid children target)
      | none => children
    | .TOP => insertBeforeRef children target none
    | .BOTTOM => insertBeforeRef children target (children.head?.map (fun d => d.data.nid))
  moved.map (clearJustAdded target)

/-- Embedding of removeElement over the body subtree: the node is detached
only when it is not the body itself and is contained under the body; the
second component is true exactly when the precondition violation was
reported (console.error) and nothing was removed. -/
def removeElement (body : DomTree) (target : Nat) : DomTree × Bool :=
  if body.data.nid ≠ target ∧ containsNode target body = true then
    (removeNid target body, false)
  else (body, true)

/-- Embedding of addElement: append the element to the container and tag it
with the just-added transient class. -/
def addElement (container element : DomTree) : DomTree × DomTree :=
  let el1 := element.addClass justAddedClassName
  (DomTree.node container.data (container.children ++ [el1]), el1)

/-- Outcome of a setImageUrl call: either the not-an-image precondition
violation was reported (the error callback, when supplied, receives the
element and this message) or a load of the URL was started. -/
inductive ImgResult where
  | notImage (cbElement : Nat) (msg : List Char)
  | started (url : List Char)

def notImageMsg : List Char := "The element is not an image.".toList

/-- Embedding of setImageUrl up to the asynchronous boundary: on an IMAGE
element, register the load listeners, add the transient loading class,
detach the first previously attached content-marked img descendant, and
start the load; on any other element, report the precondition violation and
mutate nothing.  (The source also reads getContentNode into a local only to
null-check it; a DOM element is never null, so the check always passes.) -/
def setImageUrl (el : DomTree) (url : List Char) : DomTree × ImgResult :=
  if getType el = some typeImage then
    let el1 := el.addClass loadingElementCssClass
    let imgTags := el1.descendants.filter (fun c =>
      c.data.tag = ("img".toList) ∧ elementContentClassName ∈ c.data.classes)
    let el2 :=
      match imgTags with
      | [] => el1
      | t :: _ => removeNid t.data.nid el1
    (el2, .started url)
  else
    (el, .notImage el.data.nid notImageMsg)

/-- The image node constructed by goog.net.ImageLoader for a load started via
addImage(url, url): an img element whose loader-internal id and src both
hold the URL. -/
def loaderImage (nid : Nat) (url : List Char) : DomTree :=
  .node { nid := nid, nodeType := 1, tag := "img".toList,
          attrs := [("id".toList, url), ("src".toList, url)], classes := [] } []

/-- Embedding of the LOAD listener registered by setImageUrl: invoke the
success callback with (element, loaded image), append the loaded image to
the element, tag it with the content-marker class, strip the
loader-internal id, and remove the transient loading class.  (The source
appends first and then mutates the appended node; in this persistent model
the node is transformed before appending, which yields the same tree.)
The second component records the callback arguments by node identity. -/
def fireLoad (el : DomTree) (imgNode : DomTree) : DomTree × (Nat × Nat) :=
  let cbArgs := (el.data.nid, imgNode.data.nid)
  let img1 := (imgNode.addClass elementContentClassName).removeAttribute ("id".toList)
  let el1 := DomTree.node el.data (el.children ++ [img1])
  let el2 := el1.removeClass loadingElementCssClass
  (el2, cbArgs)

/-- The four element types of the factory switch. -/
inductive ElemType where
  | container
  | image
  | text
  | html

def ElemType.str : ElemType → List Char
  | .container => typeContainer
  | .image => typeImage
  | .text => typeText
  | .html => typeHtml

/-- Modelled from the spec: silex.model.Body.EDITABLE_CLASS_NAME is defined by
the document-body collaborator, outside src/; per the spec (section 6) it is
the reserved editable marker class. -/
def editableClassName : List Char := "editable-style".toList

/-- Embedding of createContainerElement. -/
def createContainerElement (nid : Nat) : DomTree :=
  .node { nid := nid, nodeType := 1, tag := "div".toList,
          attrs := [(typeAttr, typeContainer)], classes := [] } []

/-- Embedding of createTextElement: a text-typed div wrapping a content-marked
div pre-filled with the default placeholder text and the normal class. -/
def createTextElement (nid : Nat) : DomTree :=
  .node { nid := nid, nodeType := 1, tag := "div".toList,
          attrs := [(typeAttr, typeText)], classes := [] }
    [.node { nid := nid + 1, nodeType := 1, tag := "div".toList, attrs := [],
             classes := [elementContentClassName, "normal".toList],
             text := "New text box".toList } []]

/-- Embedding of createHtmlElement: an html-typed div wrapping a content-marked
div pre-filled with the default HTML snippet. -/
def createHtmlElement (nid : Nat) : DomTree :=
  .node { nid := nid, nodeType := 1, tag := "div".toList,
          attrs := [(typeAttr, typeHtml)], classes := [] }
    [.node { nid := nid + 1, nodeType := 1, tag := "div".toList, attrs := [],
             classes := [elementContentClassName],
             text := "<p>New HTML box</p>".toList } []]

/-- Embedding of createImageElement: a bare image-typed div awaiting content. -/
def createImageElement (nid : Nat) : DomTree :=
  .node { nid := nid, nodeType := 1, tag := "div".toList,
          attrs := [(typeAttr, typeImage)], classes := [] } []

/-- Result of createElement: the constructed element and the default style
object written to the property store for it. -/
structure CreatedElement where
  elem : DomTree
  styleWritten : List (List Char × List Char)

/-- Embedding of createElement.  The stage container choice and the append to
it concern the container; the element-level effects are returned.  The
generated silex id and the fresh DOM identity are supplied by the
property-store / document collaborators and appear as parameters, the
scroll offsets come from the viewport collaborator; setEditable is owned by
the out-of-scope document-body collaborator. -/
def createElement (ty : ElemType) (generatedId : List Char) (nid : Nat)
    (scrollX scrollY : Nat) : CreatedElement :=
  let offsetX := 100 + scrollX
  let offsetY := 100 + scrollY
  let styleBase : List (List Char × List Char) :=
    [("height".toList, "100px".toList), ("width".toList, "100px".toList),
     ("top".toList, (toString offsetY).toList ++ ("px".toList)),
     ("left".toList, (toString offsetX).toList ++ ("px".toList))]
  let element :=
    match ty with
    | .container => createContainerElement nid
    | .text => createTextElement nid
    | .html => createHtmlElement nid
    | .image => createImageElement nid
  let styleObject :=
    match ty with
    | .container => styleBase ++ [("backgroundColor".toList, "#FFFFFF".toList)]
    | .html => styleBase ++ [("backgroundColor".toList, "#FFFFFF".toList)]
    | _ => styleBase
  let el1 := element.addClass editableClassName
  let el2 := el1.setSilexId generatedId
  let el3 := el2.addClass (ty.str ++ ("-element".toList))
  let el4 := el3.addClass justAddedClassName
  { elem := el4, styleWritten := styleObject }

/-- Embedding of goog.string.toSelectorCase: insert a dash before each
uppercase letter, then lowercase the whole string (ASCII model). -/
def toSelectorCase (s : List Char) : List Char :=
  s.flatMap (fun c => if 'A' ≤ c ∧ c ≤ 'Z' then ['-', lowerA c] else [lowerA c])

/-- Result of a setStyle call: the style object now stored for the element,
whether the property store was written, and the element (its just-added
transient class is always cleared). -/
structure SetStyleResult where
  styleObject : List (List Char × List Char)
  wrote : Bool
  element : DomTree

/-- Embedding of setStyle: convert the style name to selector case, read the
stored style object (an empty object when the store has none), and only
when the stored value differs from the incoming raw value (JS strict
inequality, absent compared as undefined) store the sanitised value (empty
string for an absent value) and write the object back; the just-added
transient class is removed from the element in every case. -/
def setStyle (U : UrlUtils) (fileUrl : Option (List Char))
    (stored : Option (List (List Char × List Char))) (el : DomTree)
    (styleName : List Char) (optStyleValue : Option (List Char)) :
    SetStyleResult :=
  let n := toSelectorCase styleName
  let so := stored.getD []
  let out :=
    if getAttributeL so n ≠ optStyleValue then
      let v :=
        match optStyleValue with
        | some v => prepareHtmlForEdit U fileUrl v
        | none => []
      { styleObject := setAttributeL n v so, wrote := true, element := el }
    else
      ({ styleObject := so, wrote := false, element := el } : SetStyleResult)
  { out with element := out.element.removeClass justAddedClassName }

/-- JavaScript String.prototype.split(" "): split on every single space,
keeping empty fragments. -/
def splitOnSpace : List Char → List (List Char)
  | [] => [[]]
  | c :: cs =>
    if c = ' ' then [] :: splitOnSpace cs
    else
      match splitOnSpace cs with
      | t :: ts => (c :: t) :: ts
      | [] => [[c]]

/-- Array.prototype.join(" ") over the result of goog.array.map: an undefined
hole contributes the empty string. -/
def joinSp : List (Option (List Char)) → List Char
  | [] => []
  | [x] => x.getD []
  | x :: xs => x.getD [] ++ ' ' :: joinSp xs

/-- The characters stripped by JavaScript String.prototype.trim: the WhiteSpace
and LineTerminator productions of ECMA-262 (tab, the line terminators, the
vertical/form feeds, space, no-break space, the zero-width no-break space /
BOM, and the Unicode Space_Separator characters). -/
def jsWhitespace : List Char :=
  [' ', '\t', '\n', '\r', '\x0B', '\x0C', '\u00A0', '\u1680', '\u2000',
   '\u2001', '\u2002', '\u2003', '\u2004', '\u2005', '\u2006', '\u2007',
   '\u2008', '\u2009', '\u200A', '\u2028', '\u2029', '\u202F', '\u205F',
   '\u3000', '\uFEFF']

/-- Whitespace test used by JavaScript String.prototype.trim. -/
def isJsSpace (c : Char) : Bool :=
  jsWhitespace.contains c

/-- Drop trailing JS whitespace. -/
def trimRight : List Char → List Char
  | [] => []
  | c :: cs =>
    match trimRight cs with
    | [] => if isJsSpace c then [] else [c]
    | r => c :: r

/-- JavaScript String.prototype.trim. -/
def trimJs (s : List Char) : List Char :=
  (trimRight s).dropWhile isJsSpace

/-- Modelled from the spec: silex.utils.Style.SILEX_CLASS_NAMES lives outside
src/; per the spec (sections 4.8 and 6) it is the fixed reserved-internal
class set: the content, loading, selected, just-added and editable markers
and the four type-derived classes. -/
def silexClassNames : List (List Char) :=
  [elementContentClassName, loadingElementCssClass, selectedClassName,
   justAddedClassName, editableClassName,
   "container-element".toList, "image-element".toList, "text-element".toList,
   "html-element".toList]

/-- Embedding of getClassName: split the raw className, map each token that is
reserved, a registered page name, or the element's silex id to an undefined
hole (which Array.join renders as an empty string), join with single spaces
and trim. -/
def getClassName (pages : List (List Char)) (silexId : Option (List Char))
    (className : List Char) : List Char :=
  trimJs (joinSp ((splitOnSpace className).map (fun name =>
    if name ∈ silexClassNames ∨ name ∈ pages ∨ silexId = some name then none
    else some name)))

/-- Single-space join of class tokens: the raw className attribute of an
element whose classes are held as a token list. -/
def joinTokens : List (List Char) → List Char
  | [] => []
  | [x] => x
  | x :: xs => x ++ ' ' :: joinTokens xs

/-- C1 (witness): the amended round-trip theorem applied to a concrete
marker-free HTML string. -/
theorem C1_roundtrip_witness :
    unprepareHtmlForEdit trivialUrlUtils none
        (prepareHtmlForEdit trivialUrlUtils none ("hello <b>world</b>".toList)) =
      ("hello <b>world</b>".toList) :=
  C1_roundtrip trivialUrlUtils ("hello <b>world</b>".toList)
    (by decide) (by decide) (by decide)

/-- Sibling configuration of the ordering example: four model nodes, A on
page-1, B on page-1 and page-2, C on no page, D on page-1. -/
def elOrdA : DomTree :=
  .node { nid := 1, nodeType := 1, tag := "div".toList,
          attrs := [(typeAttr, typeContainer)], classes := ["page-1".toList] } []

def elOrdB : DomTree :=
  .node { nid := 2, nodeType := 1, tag := "div".toList,
          attrs := [(typeAttr, typeContainer)],
          classes := ["page-1".toList, "page-2".toList] } []

def elOrdC : DomTree :=
  .node { nid := 3, nodeType := 1, tag := "div".toList,
          attrs := [(typeAttr, typeContainer)], classes := [] } []

def elOrdD : DomTree :=
  .node { nid := 4, nodeType := 1, tag := "div".toList,
          attrs := [(typeAttr, typeContainer)], classes := ["page-1".toList] } []

def ctxOrd : PageCtx :=
  { pages := ["page-1".toList, "page-2".toList], activePage := "page-1".toList }

def childrenOrd : List DomTree := [elOrdA, elOrdB, elOrdC, elOrdD]

/-- C2 (counterexample): in the claimed configuration, getPreviousElement(D)
does not return B: the scan remembers C, the page-less node, which counts as
visible everywhere, so the nearest visible predecessor of D is C. -/
theorem C2_counterexample :
    ((getPreviousElement ctxOrd childrenOrd 4).map (fun d => d.data.nid)) ≠ some 2 := by
  decide

/-- C2 (amended): with children [A(page1), B(page1,page2), C(none), D(page1)]
and active page page1, getNextElement(A) = B, getPreviousElement(D) = C (the
page-less node is visible everywhere and is the nearest visible
predecessor), and getNextElement(D) = null. -/
theorem C2_ordering :
    ((getNextElement ctxOrd childrenOrd 1).map (fun d => d.data.nid)) = some 2 ∧
    ((getPreviousElement ctxOrd childrenOrd 4).map (fun d => d.data.nid)) = some 3 ∧
    ((getNextElement ctxOrd childrenOrd 4).map (fun d => d.data.nid)) = none :=
  ⟨by decide, by decide, by decide⟩

theorem getAttributeL_removeAttributeL (k : List Char) :
    ∀ attrs, getAttributeL (removeAttributeL k attrs) k = none := by
  intro attrs
  induction attrs with
  | nil => rfl
  | cons p rest ih =>
    by_cases h : p.1 = k
    · simp only [removeAttributeL, List.filter_cons, h] at ih ⊢
      simp only [ne_eq, not_true_eq_false, decide_False, Bool.false_eq_true, if_false]
      exact ih
    · simp only [removeAttributeL, List.filter_cons, h] at ih ⊢
      simp only [ne_eq, not_false_eq_true, decide_True, if_true, getAttributeL,
        List.find?_cons, h, decide_False]
      simp only [getAttributeL, removeAttributeL] at ih
      exact ih

/-- C10: setLink with the empty string behaves like clearing: the empty string
is falsy, so the reserved link attribute is removed entirely (absent, not
set to the empty string), and a subsequent getLink read returns null. -/
theorem C10_setLink_empty (el : DomTree) :
    (setLink el (some [])).getAttribute linkAttr = none ∧
    getLink (setLink el (some [])) = none := by
  have h : setLink el (some []) = el.removeAttribute linkAttr := by
    rw [setLink]; rfl
  have h2 : (el.removeAttribute linkAttr).getAttribute linkAttr = none := by
    cases el with
    | node d ch =>
      show getAttributeL (removeAttributeL linkAttr d.attrs) linkAttr = none
      exact getAttributeL_removeAttributeL linkAttr d.attrs
  exact ⟨h ▸ h2, by rw [getLink, h]; exact h2⟩

/-- C8: calling setImageUrl on a node whose reserved type attribute is not
IMAGE performs no mutation at all and reports the precondition violation:
the result carries the error-callback arguments (the element and the
not-an-image message), which the source passes to the error callback when
one is supplied. -/
theorem C8_setImageUrl_notImage (el : DomTree) (url : List Char)
    (h : getType el ≠ some typeImage) :
    setImageUrl el url = (el, .notImage el.data.nid notImageMsg) := by
  rw [setImageUrl, if_neg h]

/-- C8 (witness): the precondition theorem applied to a concrete container
element. -/
theorem C8_setImageUrl_notImage_witness :
    setImageUrl (createContainerElement 30) ("http://x/y.png".toList) =
      (createContainerElement 30, .notImage 30 notImageMsg) :=
  C8_setImageUrl_notImage (createContainerElement 30) ("http://x/y.png".toList)
    (by decide)

/-- Image element and load trace used for the stale-completion scenario: two
setImageUrl calls race, the second completes, then the first completes
late. -/
def imgElemStale : DomTree := (createElement .image ("silex-id-1".toList) 5 0 0).elem

def staleEl1 : DomTree := (setImageUrl imgElemStale ("http://x/1.png".toList)).1

def staleEl2 : DomTree := (setImageUrl staleEl1 ("http://x/2.png".toList)).1

def staleEl3 : DomTree := (fireLoad staleEl2 (loaderImage 10 ("http://x/2.png".toList))).1

def staleEl4 : DomTree := (fireLoad staleEl3 (loaderImage 11 ("http://x/1.png".toList))).1

/-- C6: the source does not discard a stale completion.  After a second
setImageUrl call superseded the first and its load completed, the late
completion of the first call still mutates the node: the element gains a
second content-marked image child, after which content-node resolution even
falls back to the element itself (two content markers). -/
theorem C6_stale_completion_mutates :
    staleEl3.children.length = 1 ∧
    staleEl4.children.length = 2 ∧
    (staleEl4.descendants.filter
      (fun c => elementContentClassName ∈ c.data.classes)).length = 2 ∧
    (getContentNode staleEl4).data.nid = staleEl4.data.nid :=
  ⟨by decide, by decide, by decide, by decide⟩

/-- C4: after create(IMAGE), a setImageUrl call whose load completes
successfully leaves the node with the freshly loaded image as its content
node, tagged with the content-marker class and with the loader-internal id
removed; the transient loading class is gone, the success callback receives
(element, imageNode), and the type is still IMAGE. -/
theorem C4_setImageUrl_success (generatedId url : List Char)
    (nid imgNid scrollX scrollY : Nat) :
    (getContentNode (fireLoad
        (setImageUrl (createElement .image generatedId nid scrollX scrollY).elem url).1
        (loaderImage imgNid url)).1).data.nid = imgNid ∧
    (getContentNode (fireLoad
        (setImageUrl (createElement .image generatedId nid scrollX scrollY).elem url).1
        (loaderImage imgNid url)).1).data.classes = [elementContentClassName] ∧
    (getContentNode (fireLoad
        (setImageUrl (createElement .image generatedId nid scrollX scrollY).elem url).1
        (loaderImage imgNid url)).1).getAttribute ("id".toList) = none ∧
    (getContentNode (fireLoad
        (setImageUrl (createElement .image generatedId nid scrollX scrollY).elem url).1
        (loaderImage imgNid url)).1).getAttribute ("src".toList) = some url ∧
    (fireLoad
        (setImageUrl (createElement .image generatedId nid scrollX scrollY).elem url).1
        (loaderImage imgNid url)).1.data.classes =
      [editableClassName, "image-element".toList, justAddedClassName] ∧
    (fireLoad
        (setImageUrl (createElement .image generatedId nid scrollX scrollY).elem url).1
        (loaderImage imgNid url)).2 = (nid, imgNid) ∧
    (setImageUrl (createElement .image generatedId nid scrollX scrollY).elem url).2 =
      .started url ∧
    getType (fireLoad
        (setImageUrl (createElement .image generatedId nid scrollX scrollY).elem url).1
        (loaderImage imgNid url)).1 = some typeImage :=
  ⟨rfl, rfl, rfl, rfl, rfl, rfl, rfl, rfl⟩

mutual
theorem containsNode_removeNid (target : Nat) :
    ∀ t : DomTree, t.data.nid ≠ target →
      containsNode target (removeNid target t) = false
  | .node d ch, h => by
    have hL := containsNodeL_removeNidL target ch
    rw [removeNid, containsNode, hL, Bool.or_false]
    simpa [DomTree.data] using h
theorem containsNodeL_removeNidL (target : Nat) :
    ∀ l : List DomTree, containsNodeL target (removeNidL target l) = false
  | [] => rfl
  | c :: cs => by
    by_cases h : c.data.nid = target
    · rw [removeNidL, if_pos h]
      exact containsNodeL_removeNidL target cs
    · rw [removeNidL, if_neg h, containsNodeL,
        containsNode_removeNid target c h, containsNodeL_removeNidL target cs]
      rfl
end

/-- C7: removeElement detaches a node only when it is not the body and is
attached under the body subtree; when either condition fails the tree is
unchanged and the precondition violation is reported (in particular for the
body itself, whose identity equals the body's), and when both hold no error
is reported and the node is no longer contained in the tree. -/
theorem C7_removeElement (body : DomTree) (target : Nat) :
    (target = body.data.nid ∨ containsNode target body = false →
      removeElement body target = (body, true)) ∧
    (target ≠ body.data.nid → containsNode target body = true →
      (removeElement body target).2 = false ∧
      containsNode target (removeElement body target).1 = false) := by
  constructor
  · intro h
    rw [removeElement, if_neg]
    rintro ⟨h1, h2⟩
    rcases h with rfl | h3
    · exact h1 rfl
    · rw [h3] at h2
      cases h2
  · intro h1 h2
    rw [removeElement, if_pos ⟨fun he => h1 he.symm, h2⟩]
    exact ⟨rfl, containsNode_removeNid target body (fun he => h1 he.symm)⟩

/-- Concrete body tree used to witness removeElement. -/
def bodyW : DomTree :=
  .node { nid := 0, nodeType := 1, tag := "body".toList, attrs := [],
          classes := [] }
    [.node { nid := 1, nodeType := 1, tag := "div".toList,
             attrs := [(typeAttr, typeContainer)], classes := [] } []]

/-- C7 (witness): removing the body itself is a reported no-op; removing an
attached child succeeds and detaches it. -/
theorem C7_removeElement_witness :
    removeElement bodyW 0 = (bodyW, true) ∧
    ((removeElement bodyW 1).2 = false ∧
      containsNode 1 (removeElement bodyW 1).1 = false) :=
  ⟨(C7_removeElement bodyW 0).1 (Or.inl (by decide)),
   (C7_removeElement bodyW 1).2 (by decide) (by decide)⟩

theorem removeClass_nid (d : DomTree) (c : List Char) :
    (d.removeClass c).data.nid = d.data.nid := by
  cases d
  rfl

theorem clearJustAdded_nid (target : Nat) (d : DomTree) :
    (clearJustAdded target d).data.nid = d.data.nid := by
  rw [clearJustAdded]
  by_cases h : d.data.nid = target
  · rw [if_pos h, removeClass_nid]
  · rw [if_neg h]

theorem findNode_of_mem (target : Nat) :
    ∀ l : List DomTree, target ∈ l.map (fun d => d.data.nid) →
      ∃ t, findNode l target = some t ∧ t.data.nid = target := by
  intro l
  induction l with
  | nil => intro h; simp at h
  | cons c cs ih =>
    intro h
    by_cases hc : c.data.nid = target
    · refine ⟨c, ?_, hc⟩
      rw [findNode, List.find?_cons]
      simp [hc]
    · rw [List.map_cons, List.mem_cons] at h
      rcases h with h | h
      · exact absurd h.symm hc
      · obtain ⟨t, ht, hnid⟩ := ih h
        refine ⟨t, ?_, hnid⟩
        rw [findNode, List.find?_cons]
        simp only [hc, decide_False]
        exact ht

theorem findNode_append_last (target : Nat) (x : DomTree) (hx : x.data.nid = target) :
    ∀ l : List DomTree, (∀ d ∈ l, d.data.nid ≠ target) →
      findNode (l ++ [x]) target = some x := by
  intro l
  induction l with
  | nil =>
    intro _
    rw [List.nil_append, findNode, List.find?_cons]
    simp [hx]
  | cons c cs ih =>
    intro hl
    have hc : c.data.nid ≠ target := hl c (List.mem_cons_self c cs)
    rw [List.cons_append, findNode, List.find?_cons]
    simp only [hc, decide_False]
    exact ih (fun d hd => hl d (List.mem_cons_of_mem c hd))

theorem mem_filter_ne_nid (l : List DomTree) (target : Nat) :
    ∀ d ∈ l.filter (fun d => d.data.nid ≠ target), d.data.nid ≠ target := by
  intro d hd
  simpa using (List.mem_filter.mp hd).2

theorem filter_map_clear_eq_self (target : Nat) (l : List DomTree)
    (hl : ∀ d ∈ l, d.data.nid ≠ target) :
    (l.map (clearJustAdded target)).filter (fun d => d.data.nid ≠ target) =
      l.map (clearJustAdded target) := by
  apply List.filter_eq_self.mpr
  intro b hb
  obtain ⟨d, hd, rfl⟩ := List.mem_map.mp hb
  simp [clearJustAdded_nid, hl d hd]

/-- C9: for every node present among its parent's children, moving it TOP and
then BOTTOM leaves it as the first raw child, regardless of its prior
position. -/
theorem C9_moveTop_thenBottom (ctx : PageCtx) (children : List DomTree)
    (target : Nat) (h : target ∈ children.map (fun d => d.data.nid)) :
    ((move ctx (move ctx children target .TOP) target .BOTTOM).head?.map
      (fun d => d.data.nid)) = some target := by
  obtain ⟨t, hfind, hnid⟩ := findNode_of_mem target children h
  have htop : move ctx children target .TOP =
      ((children.filter (fun d => d.data.nid ≠ target)) ++ [t]).map
        (clearJustAdded target) := by
    simp only [move, insertBeforeRef, hfind]
  have hφt : (clearJustAdded target t).data.nid = target := by
    rw [clearJustAdded_nid]; exact hnid
  cases hcase : children.filter (fun d => d.data.nid ≠ target) with
  | nil =>
    rw [htop, hcase, List.nil_append, List.map_cons, List.map_nil]
    have hfind1 : findNode [clearJustAdded target t] target =
        some (clearJustAdded target t) := by
      rw [findNode, List.find?_cons]
      simp [hφt]
    have hnext : nextSiblingNid [clearJustAdded target t] target = none := by
      rw [nextSiblingNid, if_pos hφt]
      rfl
    have hfilter : ([clearJustAdded target t]).filter
        (fun d => d.data.nid ≠ target) = [] := by
      simp [List.filter_cons, hφt]
    simp only [move, List.head?, Option.map_some, hφt, insertBeforeRef, hfind1,
      if_pos rfl, hnext, hfilter, List.nil_append, List.map_cons, List.map_nil,
      clearJustAdded_nid]
    simp [hφt, clearJustAdded_nid]
  | cons a rest =>
    have hmem : ∀ d ∈ children.filter (fun d => d.data.nid ≠ target),
        d.data.nid ≠ target := mem_filter_ne_nid children target
    have ha : a.data.nid ≠ target := hmem a (by rw [hcase]; exact List.mem_cons_self a rest)
    have hrest : ∀ d ∈ rest, d.data.nid ≠ target :=
      fun d hd => hmem d (by rw [hcase]; exact List.mem_cons_of_mem a hd)
    have hφa : (clearJustAdded target a).data.nid = a.data.nid :=
      clearJustAdded_nid target a
    rw [htop, hcase]
    -- the list after TOP, displayed with its head explicit
    have hlist : ((a :: rest) ++ [t]).map (clearJustAdded target) =
        clearJustAdded target a ::
          (rest.map (clearJustAdded target) ++ [clearJustAdded target t]) := by
      simp [List.map_append]
    rw [hlist]
    have hfind2 : findNode (clearJustAdded target a ::
        (rest.map (clearJustAdded target) ++ [clearJustAdded target t])) target =
        some (clearJustAdded target t) := by
      have : (clearJustAdded target a ::
          (rest.map (clearJustAdded target) ++ [clearJustAdded target t])) =
          ((clearJustAdded target a :: rest.map (clearJustAdded target)) ++
            [clearJustAdded target t]) := by
        simp
      rw [this]
      refine findNode_append_last target (clearJustAdded target t) hφt _ ?_
      intro d hd
      rcases List.mem_cons.mp hd with rfl | hd2
      · rw [hφa]; exact ha
      · obtain ⟨e, he, rfl⟩ := List.mem_map.mp hd2
        rw [clearJustAdded_nid]
        exact hrest e he
    have hfilter2 : (clearJustAdded target a ::
        (rest.map (clearJustAdded target) ++ [clearJustAdded target t])).filter
          (fun d => d.data.nid ≠ target) =
        clearJustAdded target a :: rest.map (clearJustAdded target) := by
      rw [List.filter_cons, List.filter_append]
      have h1 : (decide ((clearJustAdded target a).data.nid ≠ target)) = true := by
        simp [hφa, ha]
      rw [h1]
      have h2 : (rest.map (clearJustAdded target)).filter
          (fun d => d.data.nid ≠ target) = rest.map (clearJustAdded target) :=
        filter_map_clear_eq_self target rest hrest
      rw [h2]
      have h3 : ([clearJustAdded target t]).filter
          (fun d => d.data.nid ≠ target) = [] := by
        simp [List.filter_cons, hφt]
      rw [h3, List.append_nil]
      simp
    have hrefne : ((clearJustAdded target a).data.nid = target) = False := by
      simp [hφa, ha]
    simp only [move, List.head?, Option.map_some, insertBeforeRef, hfind2, hφa,
      if_neg ha, hfilter2, insertBeforeNid, if_pos rfl, List.map_cons,
      clearJustAdded_nid, hφt]
    simp [hφa, ha, clearJustAdded_nid, hφt]

/-- C9 (witness): the TOP-then-BOTTOM theorem applied to the concrete
four-sibling configuration, moving B. -/
theorem C9_moveTop_thenBottom_witness :
    ((move ctxOrd (move ctxOrd childrenOrd 2 .TOP) 2 .BOTTOM).head?.map
      (fun d => d.data.nid)) = some 2 :=
  C9_moveTop_thenBottom ctxOrd childrenOrd 2 (by decide)

theorem getAttributeL_setAttributeL (k v : List Char) :
    ∀ so, getAttributeL (setAttributeL k v so) k = some v := by
  intro so
  induction so with
  | nil => simp [setAttributeL, getAttributeL, List.find?_cons]
  | cons p rest ih =>
    rw [setAttributeL]
    by_cases h : p.1 = k
    · rw [if_pos h]
      simp [getAttributeL, List.find?_cons]
    · rw [if_neg h]
      rw [getAttributeL, List.find?_cons]
      simp only [h, decide_False]
      exact ih

/-- C3 (counterexample): the store-write guard compares the raw incoming value
with the stored one, not the sanitised value that would be stored: with the
canonical disabled-script string stored under color, a setStyle call whose
raw value sanitises to exactly that stored string still performs a store
write, refuting "no store write when the value to be stored equals the
current one". -/
theorem C3_counterexample :
    prepareHtmlForEdit trivialUrlUtils none ("<script class=\"silex-script\">".toList) =
      ("<script type=\"text/notjavascript\" class=\"silex-script\">".toList) ∧
    (setStyle trivialUrlUtils none
        (some [(("color".toList),
          ("<script type=\"text/notjavascript\" class=\"silex-script\">".toList))])
        (createContainerElement 40) ("color".toList)
        (some ("<script class=\"silex-script\">".toList))).wrote = true :=
  ⟨by decide, by decide⟩

/-- C3 (amended): setStyle writes the property store exactly when the raw
incoming value (JS strict comparison, an absent value being undefined)
differs from the value stored under the canonical name — so a write can
occur even when the sanitised value to be stored equals the stored one; in
particular two immediately successive setStyle(node,'color','red') calls
perform exactly one store write provided color was not already stored as
red. -/
theorem C3_setStyle_writes (U : UrlUtils) (el : DomTree)
    (stored : Option (List (List Char × List Char)))
    (h : getAttributeL (stored.getD []) ("color".toList) ≠ some ("red".toList)) :
    (∀ (fileUrl : Option (List Char))
       (stored2 : Option (List (List Char × List Char)))
       (name v : _),
      (setStyle U fileUrl stored2 el name v).wrote =
        decide (getAttributeL (stored2.getD []) (toSelectorCase name) ≠ v)) ∧
    (setStyle U none stored el ("color".toList) (some ("red".toList))).wrote = true ∧
    (setStyle U none
        (some (setStyle U none stored el ("color".toList)
          (some ("red".toList))).styleObject)
        el ("color".toList) (some ("red".toList))).wrote = false := by
  have hgen : ∀ (fileUrl : Option (List Char))
      (stored2 : Option (List (List Char × List Char)))
      (name : List Char) (v : Option (List Char)),
      (setStyle U fileUrl stored2 el name v).wrote =
        decide (getAttributeL (stored2.getD []) (toSelectorCase name) ≠ v) := by
    intro fileUrl stored2 name v
    by_cases hc : getAttributeL (stored2.getD []) (toSelectorCase name) ≠ v
    · simp only [setStyle, if_pos hc]
      simp [hc]
    · simp only [setStyle, if_neg hc]
      simp [hc]
  have hsel : toSelectorCase ("color".toList) = ("color".toList) := by decide
  have hcond : getAttributeL (stored.getD []) (toSelectorCase ("color".toList)) ≠
      some ("red".toList) := by rw [hsel]; exact h
  have hw1 : (setStyle U none stored el ("color".toList)
      (some ("red".toList))).wrote = true := by
    rw [hgen, hsel]
    simpa using h
  refine ⟨hgen, hw1, ?_⟩
  have hobj : (setStyle U none stored el ("color".toList)
      (some ("red".toList))).styleObject =
      setAttributeL (toSelectorCase ("color".toList))
        (prepareHtmlForEdit U none ("red".toList)) (stored.getD []) := by
    simp only [setStyle, if_pos hcond]
  rw [hgen, hsel, hobj, hsel]
  rw [Option.getD_some, getAttributeL_setAttributeL]
  have hred : prepareHtmlForEdit U none ("red".toList) = ("red".toList) := rfl
  rw [hred]
  simp

theorem splitOnSpace_ne_nil : ∀ s : List Char, splitOnSpace s ≠ [] := by
  intro s
  cases s with
  | nil => simp [splitOnSpace]
  | cons c cs =>
    rw [splitOnSpace]
    by_cases h : c = ' '
    · simp [h]
    · rw [if_neg h]
      cases hsp : splitOnSpace cs with
      | nil => simp
      | cons t ts => simp

theorem mem_splitOnSpace_no_space :
    ∀ (s t : List Char), t ∈ splitOnSpace s → ' ' ∉ t := by
  intro s
  induction s with
  | nil =>
    intro t ht
    simp only [splitOnSpace, List.mem_singleton] at ht
    subst ht
    simp
  | cons c cs ih =>
    intro t ht
    rw [splitOnSpace] at ht
    by_cases h : c = ' '
    · rw [if_pos h] at ht
      rcases List.mem_cons.mp ht with rfl | ht2
      · simp
      · exact ih t ht2
    · rw [if_neg h] at ht
      cases hsp : splitOnSpace cs with
      | nil => exact absurd hsp (splitOnSpace_ne_nil cs)
      | cons u us =>
        rw [hsp] at ht
        rcases List.mem_cons.mp ht with rfl | ht2
        · intro hc
          rcases List.mem_cons.mp hc with hce | hc2
          · exact h hce.symm
          · exact ih u (by rw [hsp]; exact List.mem_cons_self u us) hc2
        · exact ih t (by rw [hsp]; exact List.mem_cons_of_mem u ht2)

theorem mem_splitOnSpace_chars :
    ∀ (s t : List Char) (c : Char), t ∈ splitOnSpace s → c ∈ t → c ∈ s := by
  intro s
  induction s with
  | nil =>
    intro t c ht hc
    simp only [splitOnSpace, List.mem_singleton] at ht
    subst ht
    simp at hc
  | cons a cs ih =>
    intro t c ht hc
    rw [splitOnSpace] at ht
    by_cases h : a = ' '
    · rw [if_pos h] at ht
      rcases List.mem_cons.mp ht with rfl | ht2
      · simp at hc
      · exact List.mem_cons_of_mem a (ih t c ht2 hc)
    · rw [if_neg h] at ht
      cases hsp : splitOnSpace cs with
      | nil => exact absurd hsp (splitOnSpace_ne_nil cs)
      | cons u us =>
        rw [hsp] at ht
        rcases List.mem_cons.mp ht with rfl | ht2
        · rcases List.mem_cons.mp hc with rfl | hc2
          · exact List.mem_cons_self _ _
          · exact List.mem_cons_of_mem a
              (ih u c (by rw [hsp]; exact List.mem_cons_self u us) hc2)
        · exact List.mem_cons_of_mem a
            (ih t c (by rw [hsp]; exact List.mem_cons_of_mem u ht2) hc)

theorem splitOnSpace_no_space_eq :
    ∀ (t : List Char), ' ' ∉ t → splitOnSpace t = [t] := by
  intro t
  induction t with
  | nil => intro _; rfl
  | cons c cs ih =>
    intro h
    have hc : ¬(c = ' ') := fun he => h (by rw [he]; exact List.mem_cons_self _ _)
    rw [splitOnSpace, if_neg hc, ih (fun hm => h (List.mem_cons_of_mem c hm))]

theorem splitOnSpace_append_sep :
    ∀ (t r : List Char), ' ' ∉ t →
      splitOnSpace (t ++ ' ' :: r) = t :: splitOnSpace r := by
  intro t
  induction t with
  | nil =>
    intro r _
    rw [List.nil_append, splitOnSpace, if_pos rfl]
  | cons c cs ih =>
    intro r h
    have hc : ¬(c = ' ') := fun he => h (by rw [he]; exact List.mem_cons_self _ _)
    rw [List.cons_append, splitOnSpace, if_neg hc,
      ih r (fun hm => h (List.mem_cons_of_mem c hm))]

theorem split_append_single_space :
    ∀ u : List Char, splitOnSpace (u ++ [' ']) = splitOnSpace u ++ [[]] := by
  intro u
  induction u with
  | nil => rfl
  | cons c cs ih =>
    by_cases h : c = ' '
    · rw [List.cons_append, splitOnSpace, if_pos h, ih, splitOnSpace, if_pos h]
      rfl
    · rw [List.cons_append, splitOnSpace, if_neg h, ih]
      cases hsp : splitOnSpace cs with
      | nil => exact absurd hsp (splitOnSpace_ne_nil cs)
      | cons t ts =>
        rw [splitOnSpace, if_neg h, hsp]
        rfl

theorem split_append_replicate_space :
    ∀ (k : Nat) (u : List Char),
      splitOnSpace (u ++ List.replicate k ' ') =
        splitOnSpace u ++ List.replicate k [] := by
  intro k
  induction k with
  | zero => intro u; simp
  | succ n ih =>
    intro u
    have h1 : List.replicate (n + 1) ' ' = ' ' :: List.replicate n ' ' :=
      List.replicate_succ ' ' n
    have h2 : u ++ List.replicate (n + 1) ' ' =
        (u ++ [' ']) ++ List.replicate n ' ' := by
      rw [h1, List.append_assoc]
      rfl
    rw [h2, ih, split_append_single_space, List.append_assoc, List.replicate_succ]
    rfl

theorem split_replicate_space_append :
    ∀ (m : Nat) (v : List Char),
      splitOnSpace (List.replicate m ' ' ++ v) =
        List.replicate m [] ++ splitOnSpace v := by
  intro m
  induction m with
  | zero => intro v; simp
  | succ n ih =>
    intro v
    rw [List.replicate_succ, List.cons_append, splitOnSpace, if_pos rfl, ih]
    rfl

theorem filter_replicate_nil (k : Nat) :
    (List.replicate k ([] : List Char)).filter (fun t => t ≠ []) = [] := by
  induction k with
  | zero => rfl
  | succ n ih =>
    rw [List.replicate_succ, List.filter_cons]
    simp [ih]

theorem trimRight_subset : ∀ (s : List Char) (c : Char), c ∈ trimRight s → c ∈ s := by
  intro s
  induction s with
  | nil => intro c hc; simp [trimRight] at hc
  | cons a cs ih =>
    intro c hc
    rw [trimRight] at hc
    cases hd : trimRight cs with
    | nil =>
      rw [hd] at hc
      by_cases h : isJsSpace a = true
      · rw [if_pos h] at hc; simp at hc
      · rw [if_neg h] at hc
        rw [List.mem_singleton] at hc
        rw [hc]
        exact List.mem_cons_self _ _
    | cons r rs =>
      rw [hd] at hc
      rcases List.mem_cons.mp hc with rfl | hc2
      · exact List.mem_cons_self _ _
      · exact List.mem_cons_of_mem a (ih c (by rw [hd]; exact hc2))

theorem exists_trimRight_replicate :
    ∀ s : List Char, (∀ c ∈ s, c = ' ' ∨ isJsSpace c = false) →
      ∃ k, s = trimRight s ++ List.replicate k ' ' := by
  intro s
  induction s with
  | nil => intro _; exact ⟨0, rfl⟩
  | cons a cs ih =>
    intro hws
    obtain ⟨k, hk⟩ := ih (fun c hc => hws c (List.mem_cons_of_mem a hc))
    cases hd : trimRight cs with
    | nil =>
      rw [hd, List.nil_append] at hk
      by_cases h : isJsSpace a = true
      · have ha : a = ' ' := by
          rcases hws a (List.mem_cons_self a cs) with h2 | h2
          · exact h2
          · rw [h] at h2; cases h2
        refine ⟨k + 1, ?_⟩
        rw [trimRight, hd, if_pos h, List.nil_append, List.replicate_succ, ha, ← hk]
      · refine ⟨k, ?_⟩
        rw [trimRight, hd, if_neg h]
        rw [List.singleton_append, ← hk]
    | cons r rs =>
      refine ⟨k, ?_⟩
      rw [trimRight, hd, List.cons_append, ← hd, ← hk]

theorem exists_dropWhile_replicate :
    ∀ u : List Char, (∀ c ∈ u, c = ' ' ∨ isJsSpace c = false) →
      ∃ m, u = List.replicate m ' ' ++ u.dropWhile isJsSpace := by
  intro u hws
  refine ⟨(u.takeWhile isJsSpace).length, ?_⟩
  have htake : u.takeWhile isJsSpace =
      List.replicate (u.takeWhile isJsSpace).length ' ' := by
    apply List.eq_replicate_of_mem
    intro b hb
    have hbu : b ∈ u := (List.takeWhile_prefix isJsSpace).subset hb
    have hbs : isJsSpace b = true := List.mem_takeWhile_imp hb
    rcases hws b hbu with h | h
    · exact h
    · rw [hbs] at h; cases h
  have hsplit : u.takeWhile isJsSpace ++ u.dropWhile isJsSpace = u :=
    List.takeWhile_append_dropWhile isJsSpace u
  conv_lhs => rw [← hsplit]
  rw [← htake]

theorem filter_tokens_trimJs (j : List Char)
    (hws : ∀ c ∈ j, c = ' ' ∨ isJsSpace c = false) :
    (splitOnSpace (trimJs j)).filter (fun x => x ≠ []) =
      (splitOnSpace j).filter (fun x => x ≠ []) := by
  obtain ⟨k, hk⟩ := exists_trimRight_replicate j hws
  have hws2 : ∀ c ∈ trimRight j, c = ' ' ∨ isJsSpace c = false :=
    fun c hc => hws c (trimRight_subset j c hc)
  obtain ⟨m, hm⟩ := exists_dropWhile_replicate (trimRight j) hws2
  have h1 : splitOnSpace j = splitOnSpace (trimRight j) ++ List.replicate k [] := by
    conv_lhs => rw [hk]
    exact split_append_replicate_space k (trimRight j)
  have h2 : splitOnSpace (trimRight j) =
      List.replicate m [] ++ splitOnSpace (trimJs j) := by
    conv_lhs => rw [hm]
    exact split_replicate_space_append m ((trimRight j).dropWhile isJsSpace)
  rw [h1, h2, List.filter_append, List.filter_append, filter_replicate_nil,
    filter_replicate_nil, List.append_nil, List.nil_append]

theorem splitOnSpace_joinSp :
    ∀ l : List (Option (List Char)), l ≠ [] →
      (∀ t, some t ∈ l → ' ' ∉ t) →
      splitOnSpace (joinSp l) = l.map (fun o => o.getD []) := by
  intro l
  induction l with
  | nil => intro h _; exact absurd rfl h
  | cons x xs ih =>
    intro _ hts
    cases xs with
    | nil =>
      have hx : ' ' ∉ x.getD [] := by
        cases x with
        | none => simp
        | some t => exact hts t (List.mem_cons_self _ _)
      rw [show joinSp [x] = x.getD [] from rfl,
        splitOnSpace_no_space_eq _ hx]
      rfl
    | cons y ys =>
      have hx : ' ' ∉ x.getD [] := by
        cases x with
        | none => simp
        | some t => exact hts t (List.mem_cons_self _ _)
      rw [show joinSp (x :: y :: ys) = x.getD [] ++ ' ' :: joinSp (y :: ys) from rfl,
        splitOnSpace_append_sep _ _ hx,
        ih (by simp) (fun t ht => hts t (List.mem_cons_of_mem x ht))]
      rfl

theorem joinSp_chars :
    ∀ (l : List (Option (List Char))) (c : Char), c ∈ joinSp l →
      c = ' ' ∨ ∃ t, some t ∈ l ∧ c ∈ t := by
  intro l
  induction l with
  | nil => intro c hc; simp [joinSp] at hc
  | cons x xs ih =>
    intro c hc
    cases xs with
    | nil =>
      rw [show joinSp [x] = x.getD [] from rfl] at hc
      cases x with
      | none => simp at hc
      | some t => exact Or.inr ⟨t, List.mem_cons_self _ _, hc⟩
    | cons y ys =>
      rw [show joinSp (x :: y :: ys) = x.getD [] ++ ' ' :: joinSp (y :: ys) from rfl]
        at hc
      rcases List.mem_append.mp hc with hc1 | hc2
      · cases x with
        | none => simp at hc1
        | some t => exact Or.inr ⟨t, List.mem_cons_self _ _, hc1⟩
      · rcases List.mem_cons.mp hc2 with rfl | hc3
        · exact Or.inl rfl
        · rcases ih c hc3 with h | ⟨t, ht, hct⟩
          · exact Or.inl h
          · exact Or.inr ⟨t, List.mem_cons_of_mem x ht, hct⟩

/-- C5 (counterexample): two refutations at concrete inputs, with page-1
registered.  First, a raw class attribute "a page-1 b" projects to "a  b":
the dropped page token leaves an empty hole between two separators, so the
survivors are not joined by single spaces as claimed.  Second, the claimed
"never returns a page name even if injected directly" fails outright: the
raw attribute consisting of a tab followed by page-1 splits (on single
spaces only) into the one token tab-page-1, which is not equal to the page
name and therefore survives the filter, and the final trim then strips the
tab, so getClassName returns exactly the registered page name. -/
theorem C5_counterexample :
    (getClassName [("page-1".toList)] none ("a page-1 b".toList) = ("a  b".toList) ∧
      ("a  b".toList) ≠ ("a b".toList)) ∧
    getClassName [("page-1".toList)] none ("\tpage-1".toList) = ("page-1".toList) :=
  ⟨⟨by decide, by decide⟩, by decide⟩

/-- C5 (amended): getClassName maps every reserved, page-name or generated-id
token of the raw class list to an empty hole before joining (so interior
separators can double), and its drop test compares whole space-separated
tokens while the final trim strips every JS whitespace character at the two
ends; hence the no-leak guarantee holds exactly for raw class attributes
whose whitespace is plain spaces: for such an attribute, every nonempty
token of the result is a raw class token that is neither reserved, nor a
registered page name, nor the node's silex id.  (For an attribute carrying
other whitespace the guarantee fails: a page name prefixed by a tab
survives the filter as part of a larger token and the trim exposes it, as
the counterexample shows.) -/
theorem C5_public_classes (pages : List (List Char)) (silexId : Option (List Char))
    (className : List Char)
    (hws : ∀ c ∈ className, c = ' ' ∨ isJsSpace c = false) :
    ∀ t ∈ splitOnSpace (getClassName pages silexId className), t ≠ [] →
      t ∈ splitOnSpace className ∧ t ∉ silexClassNames ∧ t ∉ pages ∧
        silexId ≠ some t := by
  intro t ht hne
  have hsome : ∀ u, some u ∈ (splitOnSpace className).map (fun name =>
      if name ∈ silexClassNames ∨ name ∈ pages ∨ silexId = some name then none
      else some name) → u ∈ splitOnSpace className := by
    intro u hu
    obtain ⟨name, hname, hval⟩ := List.mem_map.mp hu
    by_cases hcond : name ∈ silexClassNames ∨ name ∈ pages ∨ silexId = some name
    · rw [if_pos hcond] at hval; cases hval
    · rw [if_neg hcond] at hval
      have : name = u := Option.some.injEq _ _ ▸ (by
        cases hval
        rfl)
      rw [← this]
      exact hname
  have hjchars : ∀ c ∈ joinSp ((splitOnSpace className).map (fun name =>
      if name ∈ silexClassNames ∨ name ∈ pages ∨ silexId = some name then none
      else some name)), c = ' ' ∨ isJsSpace c = false := by
    intro c hc
    rcases joinSp_chars _ c hc with rfl | ⟨u, hu, hcu⟩
    · exact Or.inl rfl
    · exact hws c (mem_splitOnSpace_chars className u c (hsome u hu) hcu)
  have hsplitjoin : splitOnSpace (joinSp ((splitOnSpace className).map (fun name =>
      if name ∈ silexClassNames ∨ name ∈ pages ∨ silexId = some name then none
      else some name))) =
      ((splitOnSpace className).map (fun name =>
        if name ∈ silexClassNames ∨ name ∈ pages ∨ silexId = some name then none
        else some name)).map (fun o => o.getD []) := by
    refine splitOnSpace_joinSp _ ?_ ?_
    · intro hmap
      rw [List.map_eq_nil_iff] at hmap
      exact splitOnSpace_ne_nil className hmap
    · intro u hu
      exact mem_splitOnSpace_no_space className u (hsome u hu)
  have hchain := filter_tokens_trimJs
    (joinSp ((splitOnSpace className).map (fun name =>
      if name ∈ silexClassNames ∨ name ∈ pages ∨ silexId = some name then none
      else some name))) hjchars
  have htf : t ∈ (splitOnSpace (joinSp ((splitOnSpace className).map (fun name =>
      if name ∈ silexClassNames ∨ name ∈ pages ∨ silexId = some name then none
      else some name)))).filter (fun x => x ≠ []) := by
    rw [← hchain]
    refine List.mem_filter.mpr ⟨?_, by simpa using hne⟩
    exact ht
  have ht2 := (List.mem_filter.mp htf).1
  rw [hsplitjoin] at ht2
  obtain ⟨o, ho, hog⟩ := List.mem_map.mp ht2
  obtain ⟨name, hname, hfname⟩ := List.mem_map.mp ho
  by_cases hcond : name ∈ silexClassNames ∨ name ∈ pages ∨ silexId = some name
  · rw [if_pos hcond] at hfname
    rw [← hfname] at hog
    simp only [Option.getD_none] at hog
    exact absurd hog.symm hne
  · rw [if_neg hcond] at hfname
    rw [← hfname] at hog
    simp only [Option.getD_some] at hog
    push_neg at hcond
    subst hog
    exact ⟨hname, hcond.1, hcond.2.1, hcond.2.2⟩

/-- C5 (witness): the token theorem applied to a raw class attribute into
which a page name and the generated id were injected directly. -/
theorem C5_public_classes_witness :
    (∀ c ∈ ("a page-1 b silex-id-3".toList), c = ' ' ∨ isJsSpace c = false) ∧
    (∀ t ∈ splitOnSpace (getClassName [("page-1".toList)]
        (some ("silex-id-3".toList)) ("a page-1 b silex-id-3".toList)), t ≠ [] →
      t ∈ splitOnSpace ("a page-1 b silex-id-3".toList) ∧ t ∉ silexClassNames ∧
        t ∉ [("page-1".toList)] ∧ (some ("silex-id-3".toList) : Option (List Char)) ≠ some t) :=
  ⟨by decide,
   C5_public_classes [("page-1".toList)] (some ("silex-id-3".toList))
     ("a page-1 b silex-id-3".toList) (by decide)⟩

/-- C3 (witness): the write-guard theorem applied with an empty store: the
first color:=red call writes, the immediately repeated one does not. -/
theorem C3_setStyle_writes_witness :
    (setStyle trivialUrlUtils none none (createContainerElement 41) ("color".toList)
        (some ("red".toList))).wrote = true ∧
    (setStyle trivialUrlUtils none
        (some (setStyle trivialUrlUtils none none (createContainerElement 41)
          ("color".toList) (some ("red".toList))).styleObject)
        (createContainerElement 41) ("color".toList)
        (some ("red".toList))).wrote = false :=
  ⟨(C3_setStyle_writes trivialUrlUtils (createContainerElement 41) none
      (by decide)).2.1,
   (C3_setStyle_writes trivialUrlUtils (createContainerElement 41) none
      (by decide)).2.2⟩

end Silex
